import Mathlib

/-!
# Verification of the `arith-repl-v2` lexer (`src/lexer.rs`)

Shallow embedding of the Rust scanner. Bytes are modelled as `Nat`
(values 0..255); the input `&[u8]` buffer is a `List Nat`. The Rust
`i32` payload of `Number` is modelled as `Int` with explicit wrapping
into `[-2^31, 2^31)` at each arithmetic step (two's-complement release
semantics).

The regexes `^\d+` and `^\s+` (crate `regex::bytes`, Unicode mode on by
default) are modelled at the byte level. `\s` is modelled in full: it
matches one UTF-8-encoded Unicode `White_Space` codepoint, so `wsCharLen`
tabulates the UTF-8 encodings of all 25 such codepoints (ASCII
tab/LF/VT/FF/CR/space plus NEL, NBSP, U+1680, U+2000-U+200A, U+2028,
U+2029, U+202F, U+205F, U+3000) and `wsRunLen` is the greedy `\s+` run;
the encodings are mutually prefix-free, so the greedy match is
deterministic and maximal. `\d` is modelled by its ASCII fragment
`48..57`; the non-ASCII `\p{Nd}` digits are outside the model, and no
claim below depends on them (C3 quantifies only over ASCII-digit
inputs).

Field and function names follow the Rust source (`Lexer`, `from_cstream`,
`get_line`, `get_column`, `move_curs`, `try_extract_number`, ...). The
driver loop `execute` is embedded as the fueled recursion `executeAux`
whose per-iteration body `step` chains the five extractors in the
source's order (number, whitespace, doubles, singles, boolean); fuel
equal to the buffer length is proved sufficient (`executeAux_isSome`).
-/

/-- Token payloads, one constructor per variant of the Rust `TokenValue`
enum, in source order. `Excl` is declared in the source but (as proved
below) never produced. -/
inductive TokenValue where
  | Number (n : Int)
  | Boolean (b : Bool)
  | Character (c : Nat)
  | Cross
  | Dash
  | Star
  | Slash
  | Whitespace
  | OpenRoundBracket
  | CloseRoundBracket
  | OpenCurlyBracket
  | CloseCurlyBracket
  | Equal
  | ExclEqual
  | DoubleEqual
  | DoubleAnd
  | DoublePipe
  | Excl
  deriving DecidableEq, Repr

/-- The Rust `Token` struct: a classified value with 1-based line/column. -/
structure Token where
  value : TokenValue
  line : Nat
  column : Nat
  deriving DecidableEq, Repr

/-- The Rust `LexerErrorValue` enum. -/
inductive LexerErrorValue where
  | UnrecognizedToken
  deriving DecidableEq, Repr

/-- The Rust `LexerError` struct. -/
structure LexerError where
  value : LexerErrorValue
  line : Nat
  column : Nat
  deriving DecidableEq, Repr

/-- The Rust `Lexer` struct: borrowed byte buffer `cstream`, cached
`line`/`column`, and the byte-offset cursor `it`. -/
structure Lexer where
  cstream : List Nat
  line : Nat
  column : Nat
  it : Nat
  deriving DecidableEq, Repr

/-- Embeds `Lexer::from_cstream`: cursor 0, line 1, column 1. -/
def from_cstream (cstream : List Nat) : Lexer :=
  { cstream := cstream, it := 0, line := 1, column := 1 }

/-- Embeds `Lexer::get_line`: 1 + the number of newline bytes (10) strictly
before the cursor. -/
def get_line (st : Lexer) : Nat :=
  ((st.cstream.take st.it).countP (fun b => b == 10)) + 1

/-- Index of the last newline byte (10) in a list, if any; embeds the
`enumerate().filter(\n).last()` chain of `Lexer::get_column`. -/
def lastNewlineIdx : List Nat → Option Nat
  | [] => none
  | b :: rest =>
    match lastNewlineIdx rest with
    | some n => some (n + 1)
    | none => if b = 10 then some 0 else none

/-- Embeds `Lexer::get_column`: cursor minus the index of the last newline
before it, or cursor + 1 when no newline precedes. -/
def get_column (st : Lexer) : Nat :=
  match lastNewlineIdx (st.cstream.take st.it) with
  | some n => st.it - n
  | none => st.it + 1

/-- Embeds `Lexer::get_position`. -/
def get_position (st : Lexer) : Nat × Nat :=
  (get_line st, get_column st)

/-- Embeds `Lexer::move_curs`: advance the cursor, then recompute the cached
column and line from scratch at the new offset. -/
def move_curs (st : Lexer) (offset : Nat) : Lexer :=
  let st1 : Lexer := { st with it := st.it + offset }
  { st1 with column := get_column st1, line := get_line st1 }

/-- ASCII digit byte (the byte-level fragment of regex `\d`). -/
def isDigitByte (b : Nat) : Bool := 48 ≤ b && b ≤ 57

/-- The Unicode `White_Space` codepoints (scalar values), the class regex
`\s` matches in (default) Unicode mode: U+0009-U+000D, U+0020, U+0085,
U+00A0, U+1680, U+2000-U+200A, U+2028, U+2029, U+202F, U+205F, U+3000. -/
def wsCodepoints : List Nat :=
  [9, 10, 11, 12, 13, 32, 133, 160, 5760, 8192, 8193, 8194, 8195, 8196, 8197,
   8198, 8199, 8200, 8201, 8202, 8232, 8233, 8239, 8287, 12288]

/-- UTF-8 encoding of a scalar value below 0x10000 (all `White_Space`
codepoints are). -/
def utf8Encode (c : Nat) : List Nat :=
  if c < 128 then [c]
  else if c < 2048 then [192 + c / 64, 128 + c % 64]
  else [224 + c / 4096, 128 + (c / 64) % 64, 128 + c % 64]

/-- The byte sequences a single `\s` can match on a byte haystack. -/
def wsEncodings : List (List Nat) := wsCodepoints.map utf8Encode

/-- Byte length of the UTF-8-encoded `White_Space` codepoint at the head
of `l`, if any — one `\s` match. The encodings are mutually prefix-free,
so at most one of them is a prefix of `l` and the choice is
unambiguous. -/
def wsCharLen (l : List Nat) : Option Nat :=
  match wsEncodings.find? (fun e => l.take e.length == e) with
  | some e => some e.length
  | none => none

/-- Greedy run of `\s` matches (with explicit fuel; fuel = list length
always suffices, `wsRunLenAux_congr`). -/
def wsRunLenAux : Nat → List Nat → Nat
  | 0, _ => 0
  | Nat.succ f, l =>
    match wsCharLen l with
    | some k => k + wsRunLenAux f (l.drop k)
    | none => 0

/-- Length of the `^\s+` match on `l` (0 when there is no match): the
greedy, maximal run of UTF-8-encoded `White_Space` codepoints at the
head of `l`. -/
def wsRunLen (l : List Nat) : Nat := wsRunLenAux l.length l

/-- Wrap an integer into the `i32` range `[-2^31, 2^31)` (two's
complement). -/
def wrap32 (z : Int) : Int := (z + 2 ^ 31) % 2 ^ 32 - 2 ^ 31

/-- Embeds `Lexer::try_extract_number`: match `^\d+` on the remainder; the
payload is the `reduce(|a, b| a * 10 + b)` left fold over `i32` of the
digit values, and the token position is recomputed from scratch
(`get_position`) at the start offset. -/
def try_extract_number (st : Lexer) : Option (Token × Lexer) :=
  match ((st.cstream.drop st.it).takeWhile isDigitByte).map (fun b => ((b - 48 : Nat) : Int)) with
  | [] => none
  | d :: ds =>
    some (⟨TokenValue.Number (ds.foldl (fun a b => wrap32 (a * 10 + b)) d),
        get_line st, get_column st⟩,
      move_curs st ((st.cstream.drop st.it).takeWhile isDigitByte).length)

/-- Embeds `Lexer::try_extract_whitespace`: match `^\s+` (Unicode mode)
on the remainder; the token position is the cached `line`/`column`. -/
def try_extract_whitespace (st : Lexer) : Option (Token × Lexer) :=
  if wsRunLen (st.cstream.drop st.it) = 0 then none
  else some (⟨TokenValue.Whitespace, st.line, st.column⟩,
    move_curs st (wsRunLen (st.cstream.drop st.it)))

/-- Embeds `Lexer::try_extract_singles`: one-byte match at the cursor, arms in
source order. NOTE the final arm is faithful to the source: byte `!`
(33) produces `CloseCurlyBracket`, not `Excl` (`lexer.rs` lines
220-229). -/
def try_extract_singles (st : Lexer) : Option (Token × Lexer) :=
  match st.cstream.get? st.it with
  | none => none
  | some b =>
    if b = 61 then some (⟨TokenValue.Equal, st.line, st.column⟩, move_curs st 1)
    else if b = 43 then some (⟨TokenValue.Cross, st.line, st.column⟩, move_curs st 1)
    else if b = 45 then some (⟨TokenValue.Dash, st.line, st.column⟩, move_curs st 1)
    else if b = 42 then some (⟨TokenValue.Star, st.line, st.column⟩, move_curs st 1)
    else if b = 47 then some (⟨TokenValue.Slash, st.line, st.column⟩, move_curs st 1)
    else if b = 40 then some (⟨TokenValue.OpenRoundBracket, st.line, st.column⟩, move_curs st 1)
    else if b = 41 then some (⟨TokenValue.CloseRoundBracket, st.line, st.column⟩, move_curs st 1)
    else if b = 123 then some (⟨TokenValue.OpenCurlyBracket, st.line, st.column⟩, move_curs st 1)
    else if b = 125 then some (⟨TokenValue.CloseCurlyBracket, st.line, st.column⟩, move_curs st 1)
    else if b = 33 then some (⟨TokenValue.CloseCurlyBracket, st.line, st.column⟩, move_curs st 1)
    else none

/-- Embeds `Lexer::try_extract_doubles`: exact two-byte match at the cursor
(`cstream.get(it..it+2)` succeeds only when two bytes remain). -/
def try_extract_doubles (st : Lexer) : Option (Token × Lexer) :=
  if (st.cstream.drop st.it).take 2 = [61, 61] then
    some (⟨TokenValue.DoubleEqual, st.line, st.column⟩, move_curs st 2)
  else if (st.cstream.drop st.it).take 2 = [33, 61] then
    some (⟨TokenValue.ExclEqual, st.line, st.column⟩, move_curs st 2)
  else if (st.cstream.drop st.it).take 2 = [38, 38] then
    some (⟨TokenValue.DoubleAnd, st.line, st.column⟩, move_curs st 2)
  else if (st.cstream.drop st.it).take 2 = [124, 124] then
    some (⟨TokenValue.DoublePipe, st.line, st.column⟩, move_curs st 2)
  else none

/-- Embeds `Lexer::try_extract_boolean`: literal `True` (cached position) then
literal `False` (position recomputed via `get_line`/`get_column`, as in
the source). -/
def try_extract_boolean (st : Lexer) : Option (Token × Lexer) :=
  if (st.cstream.drop st.it).take 4 = [84, 114, 117, 101] then
    some (⟨TokenValue.Boolean true, st.line, st.column⟩, move_curs st 4)
  else if (st.cstream.drop st.it).take 5 = [70, 97, 108, 115, 101] then
    some (⟨TokenValue.Boolean false, get_line st, get_column st⟩, move_curs st 5)
  else none

/-- One iteration of the `Lexer::execute` loop body: the five extractors
tried in source order; `some` when one matched, `none` when the loop
would fall through to the `UnrecognizedToken` return. -/
def step (st : Lexer) : Option (Token × Lexer) :=
  match try_extract_number st with
  | some r => some r
  | none =>
    match try_extract_whitespace st with
    | some r => some r
    | none =>
      match try_extract_doubles st with
      | some r => some r
      | none =>
        match try_extract_singles st with
        | some r => some r
        | none => try_extract_boolean st

/-- The `Lexer::execute` while-loop, with explicit fuel (one unit per
iteration); `none` means the fuel ran out, which `executeAux_isSome`
proves never happens with fuel ≥ remaining buffer length. -/
def executeAux : Nat → Lexer → List Token → Option (Except LexerError (List Token))
  | 0, st, acc =>
    if st.it < st.cstream.length then none else some (Except.ok acc)
  | Nat.succ f, st, acc =>
    if st.it < st.cstream.length then
      match step st with
      | some (tok, st') => executeAux f st' (acc ++ [tok])
      | none => some (Except.error ⟨LexerErrorValue.UnrecognizedToken, st.line, st.column⟩)
    else some (Except.ok acc)

/-- Embeds `Lexer::from_cstream` followed by `Lexer::execute`: the public
scanning pipeline. The `none` fallback arm is dead code
(`executeAux_isSome`). -/
def scan (buf : List Nat) : Except LexerError (List Token) :=
  match executeAux buf.length (from_cstream buf) [] with
  | some r => r
  | none => Except.ok []

deriving instance DecidableEq for Except

/-- The cached `line`/`column` fields agree with the from-scratch
recomputation at the current cursor (spec §3 invariant, §4.1 contract). -/
def Synced (st : Lexer) : Prop :=
  st.line = get_line st ∧ st.column = get_column st

instance (st : Lexer) : Decidable (Synced st) :=
  inferInstanceAs (Decidable (_ ∧ _))

theorem move_curs_cstream (st : Lexer) (off : Nat) :
    (move_curs st off).cstream = st.cstream := rfl

theorem move_curs_it (st : Lexer) (off : Nat) :
    (move_curs st off).it = st.it + off := rfl

theorem synced_move_curs (st : Lexer) (off : Nat) : Synced (move_curs st off) :=
  ⟨rfl, rfl⟩

theorem synced_from_cstream (buf : List Nat) : Synced (from_cstream buf) := by
  constructor <;> rfl

theorem takeWhile_len_le {p : Nat → Bool} (l : List Nat) :
    (l.takeWhile p).length ≤ l.length :=
  (List.takeWhile_sublist p).length_le

theorem wsCharLen_nil : wsCharLen [] = none := by decide

/-- A single `\s` match is 1 to 3 bytes long and lies within the list. -/
theorem wsCharLen_bounds {l : List Nat} {k : Nat} (h : wsCharLen l = some k) :
    1 ≤ k ∧ k ≤ l.length := by
  unfold wsCharLen at h
  split at h
  case h_1 e he =>
    injection h with h
    subst h
    have hmem := List.mem_of_find?_eq_some he
    have hp : (l.take e.length == e) = true :=
      List.find?_some (p := fun x => l.take x.length == x) he
    have htake : l.take e.length = e := eq_of_beq hp
    have hlen1 : 1 ≤ e.length := by
      have hall : ∀ x ∈ wsEncodings, 1 ≤ x.length := by decide
      exact hall e hmem
    refine ⟨hlen1, ?_⟩
    have hlen := congrArg List.length htake
    rw [List.length_take] at hlen
    omega
  case h_2 => exact absurd h (by simp)

/-- A `\s` match pins the head byte to one of the lead bytes of the
`White_Space` encodings. -/
theorem wsCharLen_some_head {l : List Nat} {k : Nat} (h : wsCharLen l = some k) :
    ∃ x rest, l = x :: rest ∧ (x = 9 ∨ x = 10 ∨ x = 11 ∨ x = 12 ∨ x = 13 ∨ x = 32 ∨
      x = 194 ∨ x = 225 ∨ x = 226 ∨ x = 227) := by
  unfold wsCharLen at h
  split at h
  case h_1 e he =>
    have hmem := List.mem_of_find?_eq_some he
    have htake : l.take e.length = e :=
      eq_of_beq (List.find?_some (p := fun x => l.take x.length == x) he)
    have hlen1 : 1 ≤ e.length := by
      have hall : ∀ x ∈ wsEncodings, 1 ≤ x.length := by decide
      exact hall e hmem
    obtain ⟨x, rest, rfl⟩ : ∃ x rest, l = x :: rest := by
      cases l with
      | nil =>
        rw [List.take_nil] at htake
        rw [← htake] at hlen1
        simp at hlen1
      | cons x rest => exact ⟨x, rest, rfl⟩
    refine ⟨x, rest, rfl, ?_⟩
    have hhead : e.head? = some x := by
      rw [← htake]
      cases e with
      | nil => simp at hlen1
      | cons a es => rfl
    have hleads : ∀ y ∈ wsEncodings, y.head? = some 9 ∨ y.head? = some 10 ∨
        y.head? = some 11 ∨ y.head? = some 12 ∨ y.head? = some 13 ∨
        y.head? = some 32 ∨ y.head? = some 194 ∨ y.head? = some 225 ∨
        y.head? = some 226 ∨ y.head? = some 227 := by decide
    have := hleads e hmem
    rw [hhead] at this
    rcases this with h' | h' | h' | h' | h' | h' | h' | h' | h' | h' <;>
      [exact Or.inl (by injection h');
       exact Or.inr (Or.inl (by injection h'));
       exact Or.inr (Or.inr (Or.inl (by injection h')));
       exact Or.inr (Or.inr (Or.inr (Or.inl (by injection h'))));
       exact Or.inr (Or.inr (Or.inr (Or.inr (Or.inl (by injection h')))));
       exact Or.inr (Or.inr (Or.inr (Or.inr (Or.inr (Or.inl (by injection h'))))));
       exact Or.inr (Or.inr (Or.inr (Or.inr (Or.inr (Or.inr (Or.inl (by injection h')))))));
       exact Or.inr (Or.inr (Or.inr (Or.inr (Or.inr (Or.inr (Or.inr (Or.inl
         (by injection h'))))))));
       exact Or.inr (Or.inr (Or.inr (Or.inr (Or.inr (Or.inr (Or.inr (Or.inr (Or.inl
         (by injection h')))))))));
       exact Or.inr (Or.inr (Or.inr (Or.inr (Or.inr (Or.inr (Or.inr (Or.inr (Or.inr
         (by injection h')))))))))]
  case h_2 => exact absurd h (by simp)

/-- The fueled `\s+` run is fuel-insensitive once fuel covers the list
length. -/
theorem wsRunLenAux_congr :
    ∀ (f : Nat) (l : List Nat) (f' : Nat), l.length ≤ f → l.length ≤ f' →
      wsRunLenAux f l = wsRunLenAux f' l := by
  intro f
  induction f with
  | zero =>
    intro l f' hf hf'
    have hl : l = [] := List.eq_nil_of_length_eq_zero (by omega)
    subst hl
    cases f' with
    | zero => rfl
    | succ g' =>
      show 0 = wsRunLenAux (Nat.succ g') []
      unfold wsRunLenAux
      rw [wsCharLen_nil]
  | succ g ih =>
    intro l f' hf hf'
    cases f' with
    | zero =>
      have hl : l = [] := List.eq_nil_of_length_eq_zero (by omega)
      subst hl
      show wsRunLenAux (Nat.succ g) [] = 0
      unfold wsRunLenAux
      rw [wsCharLen_nil]
    | succ g' =>
      unfold wsRunLenAux
      cases hc : wsCharLen l with
      | none => rfl
      | some k =>
        have hb := wsCharLen_bounds hc
        show k + wsRunLenAux g (l.drop k) = k + wsRunLenAux g' (l.drop k)
        rw [ih (l.drop k) g' (by rw [List.length_drop]; omega)
          (by rw [List.length_drop]; omega)]

/-- One-step unfolding of `wsRunLen`. -/
theorem wsRunLen_eq (l : List Nat) :
    wsRunLen l = match wsCharLen l with
      | some k => k + wsRunLen (l.drop k)
      | none => 0 := by
  cases hc : wsCharLen l with
  | none =>
    show wsRunLen l = 0
    unfold wsRunLen
    cases l with
    | nil => rfl
    | cons x rest =>
      show wsRunLenAux (Nat.succ rest.length) (x :: rest) = 0
      unfold wsRunLenAux
      rw [hc]
  | some k =>
    show wsRunLen l = k + wsRunLen (l.drop k)
    have hb := wsCharLen_bounds hc
    obtain ⟨x, rest, rfl⟩ : ∃ x rest, l = x :: rest := by
      cases l with
      | nil => simp at hb; omega
      | cons x rest => exact ⟨x, rest, rfl⟩
    show wsRunLenAux (Nat.succ rest.length) (x :: rest) = k + wsRunLen ((x :: rest).drop k)
    unfold wsRunLenAux
    rw [hc]
    show k + wsRunLenAux rest.length ((x :: rest).drop k) = _
    rw [wsRunLenAux_congr rest.length ((x :: rest).drop k) ((x :: rest).drop k).length
      (by rw [List.length_drop]; simp only [List.length_cons] at hb ⊢; omega) (Nat.le_refl _)]
    rfl

/-- The `\s+` match never runs past the end of the list. -/
theorem wsRunLen_le_length : ∀ (f : Nat) (l : List Nat), wsRunLenAux f l ≤ l.length := by
  intro f
  induction f with
  | zero =>
    intro l
    exact Nat.zero_le _
  | succ g ih =>
    intro l
    unfold wsRunLenAux
    cases hc : wsCharLen l with
    | none => exact Nat.zero_le _
    | some k =>
      have hb := wsCharLen_bounds hc
      have := ih (l.drop k)
      rw [List.length_drop] at this
      show k + wsRunLenAux g (l.drop k) ≤ l.length
      omega

theorem wsRunLen_le (l : List Nat) : wsRunLen l ≤ l.length :=
  wsRunLen_le_length l.length l

/-- Shape of a successful number extraction: the token position is
recomputed from scratch and the cursor advances by the digit-run length,
at least 1 and staying within the buffer. -/
theorem try_extract_number_some {st : Lexer} {t : Token} {st' : Lexer}
    (h : try_extract_number st = some (t, st')) :
    t.line = get_line st ∧ t.column = get_column st ∧
      ∃ k, 1 ≤ k ∧ st.it + k ≤ st.cstream.length ∧ st' = move_curs st k := by
  unfold try_extract_number at h
  split at h
  · exact absurd h (by simp)
  case h_2 d ds hmap =>
    simp only [Option.some.injEq, Prod.mk.injEq] at h
    obtain ⟨h1, h2⟩ := h
    have hrunne : (st.cstream.drop st.it).takeWhile isDigitByte ≠ [] := by
      intro hnil
      rw [hnil] at hmap
      exact absurd hmap (by simp)
    have hdropne : st.cstream.drop st.it ≠ [] := by
      intro hnil
      rw [hnil] at hrunne
      exact hrunne rfl
    have hlt : st.it < st.cstream.length := by
      by_contra hge
      exact hdropne (List.drop_eq_nil_iff_le.mpr (Nat.le_of_not_lt hge))
    have hlen := takeWhile_len_le (p := isDigitByte) (st.cstream.drop st.it)
    rw [List.length_drop] at hlen
    refine ⟨by rw [← h1], by rw [← h1], ((st.cstream.drop st.it).takeWhile isDigitByte).length,
      ?_, by omega, h2.symm⟩
    exact Nat.one_le_iff_ne_zero.mpr (fun h0 => hrunne (List.eq_nil_of_length_eq_zero h0))

/-- Shape of a successful whitespace extraction: cached position, cursor
advances by the whitespace-run length. -/
theorem try_extract_whitespace_some {st : Lexer} {t : Token} {st' : Lexer}
    (h : try_extract_whitespace st = some (t, st')) :
    t.line = st.line ∧ t.column = st.column ∧ t.value = TokenValue.Whitespace ∧
      ∃ k, 1 ≤ k ∧ st.it + k ≤ st.cstream.length ∧ st' = move_curs st k := by
  unfold try_extract_whitespace at h
  split at h
  · exact absurd h (by simp)
  case isFalse hne =>
    simp only [Option.some.injEq, Prod.mk.injEq] at h
    obtain ⟨h1, h2⟩ := h
    have hlt : st.it < st.cstream.length := by
      by_contra hge
      have hnil : st.cstream.drop st.it = [] :=
        List.drop_eq_nil_iff_le.mpr (Nat.le_of_not_lt hge)
      rw [hnil] at hne
      exact hne rfl
    have hlen := wsRunLen_le (st.cstream.drop st.it)
    rw [List.length_drop] at hlen
    exact ⟨by rw [← h1], by rw [← h1], by rw [← h1],
      wsRunLen (st.cstream.drop st.it), Nat.one_le_iff_ne_zero.mpr hne,
      by omega, h2.symm⟩

/-- Shape of a successful single-byte extraction: cached position,
cursor advances by exactly 1. -/
theorem try_extract_singles_some {st : Lexer} {t : Token} {st' : Lexer}
    (h : try_extract_singles st = some (t, st')) :
    t.line = st.line ∧ t.column = st.column ∧
      ∃ k, 1 ≤ k ∧ st.it + k ≤ st.cstream.length ∧ st' = move_curs st k := by
  unfold try_extract_singles at h
  split at h
  · exact absurd h (by simp)
  case h_2 b hb =>
    have hlt : st.it < st.cstream.length := by
      rw [List.get?_eq_getElem?] at hb
      exact (List.getElem?_eq_some.mp hb).1
    repeat' split at h
    all_goals first
      | (simp only [Option.some.injEq, Prod.mk.injEq] at h
         obtain ⟨h1, h2⟩ := h
         exact ⟨by rw [← h1], by rw [← h1], 1, Nat.le_refl 1, by omega, h2.symm⟩)
      | exact absurd h (by simp)

/-- Shape of a successful two-byte extraction: cached position, cursor
advances by exactly 2. -/
theorem try_extract_doubles_some {st : Lexer} {t : Token} {st' : Lexer}
    (h : try_extract_doubles st = some (t, st')) :
    t.line = st.line ∧ t.column = st.column ∧
      ∃ k, 1 ≤ k ∧ st.it + k ≤ st.cstream.length ∧ st' = move_curs st k := by
  unfold try_extract_doubles at h
  repeat' split at h
  all_goals first
    | (rename_i hs
       simp only [Option.some.injEq, Prod.mk.injEq] at h
       obtain ⟨h1, h2⟩ := h
       have hlen := congrArg List.length hs
       simp only [List.length_take, List.length_drop, List.length_cons,
         List.length_nil] at hlen
       exact ⟨by rw [← h1], by rw [← h1], 2, by omega, by omega, h2.symm⟩)
    | exact absurd h (by simp)

/-- Shape of a successful boolean extraction: `True` carries the cached
position, `False` the from-scratch one; the cursor advances by the
keyword length. -/
theorem try_extract_boolean_some {st : Lexer} {t : Token} {st' : Lexer}
    (h : try_extract_boolean st = some (t, st')) :
    ((t.line = st.line ∧ t.column = st.column) ∨
        (t.line = get_line st ∧ t.column = get_column st)) ∧
      ∃ k, 1 ≤ k ∧ st.it + k ≤ st.cstream.length ∧ st' = move_curs st k := by
  unfold try_extract_boolean at h
  repeat' split at h
  all_goals first
    | (rename_i hs
       simp only [Option.some.injEq, Prod.mk.injEq] at h
       obtain ⟨h1, h2⟩ := h
       have hlen := congrArg List.length hs
       simp only [List.length_take, List.length_drop, List.length_cons,
         List.length_nil] at hlen
       first
         | exact ⟨Or.inl ⟨by rw [← h1], by rw [← h1]⟩, 4, by omega, by omega, h2.symm⟩
         | exact ⟨Or.inr ⟨by rw [← h1], by rw [← h1]⟩, 5, by omega, by omega, h2.symm⟩)
    | exact absurd h (by simp)

/-- A successful `step` is a success of one of the five extractors. -/
theorem step_some_cases {st : Lexer} {t : Token} {st' : Lexer}
    (h : step st = some (t, st')) :
    try_extract_number st = some (t, st') ∨ try_extract_whitespace st = some (t, st') ∨
      try_extract_doubles st = some (t, st') ∨ try_extract_singles st = some (t, st') ∨
      try_extract_boolean st = some (t, st') := by
  unfold step at h
  repeat' split at h
  all_goals first
    | (rename_i heq
       injection h with h'
       rw [h'] at heq
       first
         | exact Or.inl heq
         | exact Or.inr (Or.inl heq)
         | exact Or.inr (Or.inr (Or.inl heq))
         | exact Or.inr (Or.inr (Or.inr (Or.inl heq))))
    | exact Or.inr (Or.inr (Or.inr (Or.inr h)))

/-- Every successful `step` preserves the buffer, strictly advances the
cursor, stays within the buffer, and leaves the cached position synced. -/
theorem step_consumes {st : Lexer} {t : Token} {st' : Lexer}
    (h : step st = some (t, st')) :
    st'.cstream = st.cstream ∧ st.it < st'.it ∧ st'.it ≤ st.cstream.length ∧ Synced st' := by
  have hk : ∃ k, 1 ≤ k ∧ st.it + k ≤ st.cstream.length ∧ st' = move_curs st k := by
    rcases step_some_cases h with hc | hc | hc | hc | hc
    · exact (try_extract_number_some hc).2.2
    · exact (try_extract_whitespace_some hc).2.2.2
    · exact (try_extract_doubles_some hc).2.2
    · exact (try_extract_singles_some hc).2.2
    · exact (try_extract_boolean_some hc).2
  obtain ⟨k, hk1, hk2, rfl⟩ := hk
  exact ⟨rfl, by rw [move_curs_it]; omega, by rw [move_curs_it]; exact hk2,
    synced_move_curs st k⟩

/-- On a synced state, every token emitted by `step` carries the
from-scratch line and column of its start offset (the cursor at
emission). -/
theorem step_token_pos {st : Lexer} {t : Token} {st' : Lexer}
    (hs : Synced st) (h : step st = some (t, st')) :
    t.line = get_line st ∧ t.column = get_column st := by
  rcases step_some_cases h with hc | hc | hc | hc | hc
  · exact ⟨(try_extract_number_some hc).1, (try_extract_number_some hc).2.1⟩
  · obtain ⟨h1, h2, _, _⟩ := try_extract_whitespace_some hc
    exact ⟨h1.trans hs.1, h2.trans hs.2⟩
  · obtain ⟨h1, h2, _⟩ := try_extract_doubles_some hc
    exact ⟨h1.trans hs.1, h2.trans hs.2⟩
  · obtain ⟨h1, h2, _⟩ := try_extract_singles_some hc
    exact ⟨h1.trans hs.1, h2.trans hs.2⟩
  · obtain ⟨hpos, _⟩ := try_extract_boolean_some hc
    rcases hpos with ⟨h1, h2⟩ | ⟨h1, h2⟩
    · exact ⟨h1.trans hs.1, h2.trans hs.2⟩
    · exact ⟨h1, h2⟩

/-- Fuel equal to the remaining buffer length always suffices: the
`execute` loop ends after at most `length - it` iterations. -/
theorem executeAux_isSome :
    ∀ (fuel : Nat) (st : Lexer) (acc : List Token),
      st.cstream.length - st.it ≤ fuel → (executeAux fuel st acc).isSome = true := by
  intro fuel
  induction fuel with
  | zero =>
    intro st acc hle
    unfold executeAux
    split
    · rename_i hlt
      exact absurd hlt (by omega)
    · rfl
  | succ f ih =>
    intro st acc hle
    unfold executeAux
    split
    · rename_i hlt
      cases hstep : step st with
      | none => rfl
      | some r =>
        obtain ⟨tok, st'⟩ := r
        obtain ⟨hcs, hgt, _, _⟩ := step_consumes hstep
        exact ih st' (acc ++ [tok]) (by rw [hcs]; omega)
    · rfl

/-- The fueled loop with fuel = buffer length computes `scan`. -/
theorem scan_eq_some (buf : List Nat) :
    executeAux buf.length (from_cstream buf) [] = some (scan buf) := by
  have h := executeAux_isSome buf.length (from_cstream buf) []
    (by simp [from_cstream])
  cases heq : executeAux buf.length (from_cstream buf) [] with
  | none => rw [heq] at h; exact absurd h (by simp)
  | some r =>
    unfold scan
    rw [heq]

/-- Reachability by zero or more iterations of the `execute` loop. -/
inductive Reaches : Lexer → Lexer → Prop
  | refl (st : Lexer) : Reaches st st
  | tail (st st1 st2 : Lexer) (t : Token) :
      step st = some (t, st1) → Reaches st1 st2 → Reaches st st2

theorem reaches_cstream {st st' : Lexer} (h : Reaches st st') :
    st'.cstream = st.cstream := by
  induction h with
  | refl st0 => rfl
  | tail s s1 s2 t hstep htail ih => rw [ih, (step_consumes hstep).1]

theorem reaches_synced {st st' : Lexer} (h : Reaches st st') :
    Synced st → Synced st' := by
  induction h with
  | refl st0 => exact id
  | tail s s1 s2 t hstep htail ih => exact fun _ => ih (step_consumes hstep).2.2.2

/-- If the loop can reach a position strictly inside the buffer where no
extractor matches, `executeAux` (with enough fuel) returns the
`UnrecognizedToken` error positioned by that state's cached fields. -/
theorem executeAux_err_of_bad {st stBad : Lexer} (hr : Reaches st stBad) :
    stBad.it < stBad.cstream.length → step stBad = none →
    ∀ (acc : List Token) (fuel : Nat), st.cstream.length - st.it ≤ fuel →
      executeAux fuel st acc =
        some (Except.error ⟨LexerErrorValue.UnrecognizedToken, stBad.line, stBad.column⟩) := by
  induction hr with
  | refl st0 =>
    intro hlt hnone acc fuel hfuel
    cases fuel with
    | zero => exact absurd hfuel (by omega)
    | succ f =>
      unfold executeAux
      rw [if_pos hlt, hnone]
  | tail s s1 s2 t hstep htail ih =>
    intro hlt hnone acc fuel hfuel
    obtain ⟨hcs, hgt, hle, _⟩ := step_consumes hstep
    cases fuel with
    | zero => exact absurd hfuel (by omega)
    | succ f =>
      unfold executeAux
      rw [if_pos (by omega), hstep]
      exact ih hlt hnone (acc ++ [t]) f (by rw [hcs]; omega)

/-- Conversely, an error result of `executeAux` exhibits a reachable
in-buffer state where no extractor matches, and the error is
`UnrecognizedToken` at that state's cached position. -/
theorem executeAux_bad_of_err :
    ∀ (fuel : Nat) (st : Lexer) (acc : List Token) (e : LexerError),
      executeAux fuel st acc = some (Except.error e) →
      ∃ stBad, Reaches st stBad ∧ stBad.it < stBad.cstream.length ∧ step stBad = none ∧
        e = ⟨LexerErrorValue.UnrecognizedToken, stBad.line, stBad.column⟩ := by
  intro fuel
  induction fuel with
  | zero =>
    intro st acc e h
    unfold executeAux at h
    split at h
    · exact absurd h (by simp)
    · exact absurd h (by simp)
  | succ f ih =>
    intro st acc e h
    unfold executeAux at h
    split at h
    · rename_i hlt
      cases hstep : step st with
      | none =>
        rw [hstep] at h
        have h' : some (Except.error
            (⟨LexerErrorValue.UnrecognizedToken, st.line, st.column⟩ : LexerError)) =
            some (Except.error e) := h
        simp only [Option.some.injEq, Except.error.injEq] at h'
        exact ⟨st, Reaches.refl st, hlt, hstep, h'.symm⟩
      | some r =>
        obtain ⟨tok, st'⟩ := r
        rw [hstep] at h
        have h' : executeAux f st' (acc ++ [tok]) = some (Except.error e) := h
        obtain ⟨stBad, hrr, hb1, hb2, hb3⟩ := ih st' (acc ++ [tok]) e h'
        exact ⟨stBad, Reaches.tail st st' stBad tok hstep hrr, hb1, hb2, hb3⟩
    · exact absurd h (by simp)

/-- Any per-token property established by `step` on synced states over a
fixed buffer holds of every token in a successful run. -/
theorem executeAux_ok_tokens (B : List Nat) (P : Token → Prop)
    (hstepP : ∀ st t st', st.cstream = B → Synced st → step st = some (t, st') → P t) :
    ∀ (fuel : Nat) (st : Lexer) (acc ts : List Token), st.cstream = B → Synced st →
      (∀ t ∈ acc, P t) → executeAux fuel st acc = some (Except.ok ts) →
      ∀ t ∈ ts, P t := by
  intro fuel
  induction fuel with
  | zero =>
    intro st acc ts hB hsync hacc h t ht
    unfold executeAux at h
    split at h
    · exact absurd h (by simp)
    · simp only [Option.some.injEq, Except.ok.injEq] at h
      exact hacc t (h ▸ ht)
  | succ f ih =>
    intro st acc ts hB hsync hacc h t ht
    unfold executeAux at h
    split at h
    · rename_i hlt
      cases hstep : step st with
      | none =>
        rw [hstep] at h
        have h' : some (Except.error
            (⟨LexerErrorValue.UnrecognizedToken, st.line, st.column⟩ : LexerError)) =
            some (Except.ok ts) := h
        exact absurd h' (by simp)
      | some r =>
        obtain ⟨tok, st'⟩ := r
        rw [hstep] at h
        have h' : executeAux f st' (acc ++ [tok]) = some (Except.ok ts) := h
        obtain ⟨hcs, _, _, hsync'⟩ := step_consumes hstep
        refine ih st' (acc ++ [tok]) ts (by rw [hcs]; exact hB) hsync' ?_ h' t ht
        intro u hu
        rcases List.mem_append.mp hu with hu | hu
        · exact hacc u hu
        · rw [List.mem_singleton.mp hu]
          exact hstepP st tok st' hB hsync hstep
    · simp only [Option.some.injEq, Except.ok.injEq] at h
      exact hacc t (h ▸ ht)

/-- From the spec's words (§4.1): `line_at(offset)` = 1 + count of
newline bytes in `buffer[0..offset]`. Stated over the buffer and offset
alone, for comparison with the scanner's `get_line`. -/
def specLineAt (buf : List Nat) (off : Nat) : Nat :=
  1 + (buf.take off).countP (fun b => b == 10)

/-- From the spec's words (§4.1): `column_at(offset)` = offset minus the
index of the last newline before it, or offset + 1 when no newline
precedes. -/
def specColumnAt (buf : List Nat) (off : Nat) : Nat :=
  match lastNewlineIdx (buf.take off) with
  | some n => off - n
  | none => off + 1

/-- From the spec's words (§4.2.1): digits interpreted by left-to-right
accumulation `acc = acc*10 + digit` over `i32`, starting from 0. -/
def specNumVal (ds : List Nat) : Int :=
  ds.foldl (fun a b => wrap32 (a * 10 + ((b - 48 : Nat) : Int))) 0

/-- From claim C6's words: the four-character whitespace set
space/tab/CR/LF. -/
def isSpecWs4 (b : Nat) : Bool := b == 32 || b == 9 || b == 13 || b == 10

theorem get_line_eq_spec (st : Lexer) : get_line st = specLineAt st.cstream st.it := by
  unfold get_line specLineAt
  omega

theorem get_column_eq_spec (st : Lexer) :
    get_column st = specColumnAt st.cstream st.it := rfl

theorem wrap32_small {z : Int} (h0 : 0 ≤ z) (h1 : z < 2 ^ 31) : wrap32 z = z := by
  unfold wrap32
  rw [Int.emod_eq_of_lt (by omega) (by omega)]
  omega

/-- The code's fold from the head digit agrees with the spec's fold from
zero, for a digit-valued head. -/
theorem code_fold_eq_spec (d : Nat) (ds : List Nat) (hd : 48 ≤ d ∧ d ≤ 57) :
    (ds.map (fun b => ((b - 48 : Nat) : Int))).foldl
        (fun a b => wrap32 (a * 10 + b)) ((d - 48 : Nat) : Int) =
      specNumVal (d :: ds) := by
  unfold specNumVal
  rw [List.foldl_cons, List.foldl_map]
  have hz : wrap32 ((0 : Int) * 10 + ((d - 48 : Nat) : Int)) = ((d - 48 : Nat) : Int) := by
    rw [zero_mul, zero_add]
    exact wrap32_small (Int.natCast_nonneg _) (by omega)
  rw [hz]

/-- When the cursor is at or past the end, the loop exits with the
accumulated tokens. -/
theorem executeAux_done (fuel : Nat) (st : Lexer) (acc : List Token)
    (h : st.cstream.length ≤ st.it) :
    executeAux fuel st acc = some (Except.ok acc) := by
  cases fuel with
  | zero =>
    unfold executeAux
    rw [if_neg (by omega)]
  | succ f =>
    unfold executeAux
    rw [if_neg (by omega)]

/-- If the head of the remainder is not a digit, the number extractor
fails. -/
theorem number_none_of_head (st : Lexer) (x : Nat) (rest : List Nat)
    (hx : st.cstream.drop st.it = x :: rest) (hnd : isDigitByte x = false) :
    try_extract_number st = none := by
  unfold try_extract_number
  rw [hx]
  simp [List.takeWhile_cons, hnd]

/-- If the head of the remainder is not a lead byte of any `White_Space`
encoding, the whitespace extractor fails. -/
theorem ws_none_of_head (st : Lexer) (x : Nat) (rest : List Nat)
    (hx : st.cstream.drop st.it = x :: rest)
    (hnw : ¬(x = 9 ∨ x = 10 ∨ x = 11 ∨ x = 12 ∨ x = 13 ∨ x = 32 ∨ x = 194 ∨
      x = 225 ∨ x = 226 ∨ x = 227)) :
    try_extract_whitespace st = none := by
  have hrun : wsRunLen (x :: rest) = 0 := by
    rw [wsRunLen_eq]
    cases hc : wsCharLen (x :: rest) with
    | none => rfl
    | some k =>
      obtain ⟨y, rest', heq, hy⟩ := wsCharLen_some_head hc
      injection heq with h1 h2
      rw [← h1] at hy
      exact absurd hy hnw
  unfold try_extract_whitespace
  rw [hx]
  simp [hrun]

/-- No extractor, hence no `step`, ever emits a `Character` token. -/
theorem step_not_character {st : Lexer} {t : Token} {st' : Lexer}
    (h : step st = some (t, st')) (c : Nat) : t.value ≠ TokenValue.Character c := by
  rcases step_some_cases h with hc | hc | hc | hc | hc
  · unfold try_extract_number at hc
    split at hc
    · exact absurd hc (by simp)
    · simp only [Option.some.injEq, Prod.mk.injEq] at hc
      obtain ⟨h1, _⟩ := hc
      rw [← h1]
      simp
  · unfold try_extract_whitespace at hc
    split at hc
    · exact absurd hc (by simp)
    · simp only [Option.some.injEq, Prod.mk.injEq] at hc
      obtain ⟨h1, _⟩ := hc
      rw [← h1]
      simp
  · unfold try_extract_doubles at hc
    repeat' split at hc
    all_goals first
      | (simp only [Option.some.injEq, Prod.mk.injEq] at hc
         obtain ⟨h1, _⟩ := hc
         rw [← h1]
         simp)
      | exact absurd hc (by simp)
  · unfold try_extract_singles at hc
    repeat' split at hc
    all_goals first
      | (simp only [Option.some.injEq, Prod.mk.injEq] at hc
         obtain ⟨h1, _⟩ := hc
         rw [← h1]
         simp)
      | exact absurd hc (by simp)
  · unfold try_extract_boolean at hc
    repeat' split at hc
    all_goals first
      | (simp only [Option.some.injEq, Prod.mk.injEq] at hc
         obtain ⟨h1, _⟩ := hc
         rw [← h1]
         simp)
      | exact absurd hc (by simp)

/-- On a remainder that is one full digit run, the number extractor
emits `Number` of the spec's base-10 accumulation at the from-scratch
position. -/
theorem try_extract_number_eq (st : Lexer) (r : List Nat)
    (hr : (st.cstream.drop st.it).takeWhile isDigitByte = r) (hne : r ≠ [])
    (hdig : ∀ b ∈ r, 48 ≤ b ∧ b ≤ 57) :
    try_extract_number st =
      some (⟨TokenValue.Number (specNumVal r), get_line st, get_column st⟩,
        move_curs st r.length) := by
  unfold try_extract_number
  rw [hr]
  cases r with
  | nil => exact absurd rfl hne
  | cons d ds =>
    simp only [List.map_cons]
    rw [code_fold_eq_spec d ds (hdig d (by simp))]

/-- C3: for every non-empty input of ASCII digit bytes, `scan` succeeds
with exactly one `Number` token whose payload is the left-to-right
base-10 accumulation `acc = acc*10 + digit` over `i32`, at line 1,
column 1. -/
theorem digits_scan_single_number (buf : List Nat) (hne : buf ≠ [])
    (hdig : ∀ b ∈ buf, 48 ≤ b ∧ b ≤ 57) :
    scan buf = Except.ok [⟨TokenValue.Number (specNumVal buf), 1, 1⟩] := by
  obtain ⟨b, bs, rfl⟩ : ∃ b bs, buf = b :: bs := by
    cases buf with
    | nil => exact absurd rfl hne
    | cons b bs => exact ⟨b, bs, rfl⟩
  have htw : (b :: bs).takeWhile isDigitByte = b :: bs :=
    List.takeWhile_eq_self_iff.mpr (fun x hx => by
      simp only [isDigitByte, Bool.and_eq_true, decide_eq_true_eq]
      exact ⟨(hdig x hx).1, (hdig x hx).2⟩)
  have hr : ((from_cstream (b :: bs)).cstream.drop
      (from_cstream (b :: bs)).it).takeWhile isDigitByte = b :: bs := by
    simpa [from_cstream] using htw
  have hnum := try_extract_number_eq (from_cstream (b :: bs)) (b :: bs) hr (by simp) hdig
  have hstep : step (from_cstream (b :: bs)) =
      some (⟨TokenValue.Number (specNumVal (b :: bs)), 1, 1⟩,
        move_curs (from_cstream (b :: bs)) (b :: bs).length) := by
    unfold step
    rw [hnum]
    rfl
  have hrun : executeAux (b :: bs).length (from_cstream (b :: bs)) [] =
      some (Except.ok [⟨TokenValue.Number (specNumVal (b :: bs)), 1, 1⟩]) := by
    show executeAux (Nat.succ bs.length) (from_cstream (b :: bs)) [] = _
    unfold executeAux
    rw [if_pos (by simp [from_cstream]), hstep]
    exact executeAux_done bs.length _ _
      (by rw [move_curs_it, move_curs_cstream]; simp [from_cstream])
  have hs := scan_eq_some (b :: bs)
  rw [hrun] at hs
  injection hs with hs
  exact hs.symm

/-- C3 witness: the two-digit input `"12"`. -/
theorem digits_scan_single_number_witness :
    ([49, 50] : List Nat) ≠ [] ∧
      scan [49, 50] = Except.ok [⟨TokenValue.Number (specNumVal [49, 50]), 1, 1⟩] :=
  ⟨by decide, digits_scan_single_number [49, 50] (by decide) (by decide)⟩

/-- C2: a two-character operator at the cursor is recognized by the
two-character extractors before the single-character ones can split it:
whenever the remainder starts with `==`, `!=`, `&&` or `||`, `step`
emits the corresponding double token and consumes both bytes; in
particular `scan "=="` is one `DoubleEqual` token, not two `Equal`s. -/
theorem doubles_before_singles :
    (∀ (st : Lexer) (rest : List Nat), st.cstream.drop st.it = 61 :: 61 :: rest →
        step st = some (⟨TokenValue.DoubleEqual, st.line, st.column⟩, move_curs st 2)) ∧
      (∀ (st : Lexer) (rest : List Nat), st.cstream.drop st.it = 33 :: 61 :: rest →
        step st = some (⟨TokenValue.ExclEqual, st.line, st.column⟩, move_curs st 2)) ∧
      (∀ (st : Lexer) (rest : List Nat), st.cstream.drop st.it = 38 :: 38 :: rest →
        step st = some (⟨TokenValue.DoubleAnd, st.line, st.column⟩, move_curs st 2)) ∧
      (∀ (st : Lexer) (rest : List Nat), st.cstream.drop st.it = 124 :: 124 :: rest →
        step st = some (⟨TokenValue.DoublePipe, st.line, st.column⟩, move_curs st 2)) ∧
      scan [61, 61] = Except.ok [⟨TokenValue.DoubleEqual, 1, 1⟩] := by
  refine ⟨?_, ?_, ?_, ?_, by decide⟩
  all_goals
    intro st rest h
    unfold step
    rw [number_none_of_head st _ _ h (by decide), ws_none_of_head st _ _ h (by decide)]
    unfold try_extract_doubles
    rw [h]
    simp

/-- C2 witness: a lexer state sitting on `"=="`. -/
theorem doubles_before_singles_witness :
    step (from_cstream [61, 61]) =
      some (⟨TokenValue.DoubleEqual, 1, 1⟩, move_curs (from_cstream [61, 61]) 2) :=
  doubles_before_singles.1 (from_cstream [61, 61]) [] rfl

/-- C1 (code bug): on the single byte `!` the scanner succeeds with one
token, but its kind is `CloseCurlyBracket`, not a distinct Not kind: the
`!` arm of `try_extract_singles` reuses the closing-brace token value,
while the declared `Excl` variant (distinct from `CloseCurlyBracket`)
stays unused. -/
theorem excl_byte_emits_close_curly :
    scan [33] = Except.ok [⟨TokenValue.CloseCurlyBracket, 1, 1⟩] ∧
      TokenValue.Excl ≠ TokenValue.CloseCurlyBracket :=
  ⟨by decide, by decide⟩

/-- C4: every token emitted by a `step` from a synced state carries the
from-scratch line (1 + newlines before its start offset) and column (per
`specColumnAt`) of that offset; every token of a successful scan has
such an offset inside the buffer; and on input `"1\n22"` the `Number 22`
token is at line 2, column 1. -/
theorem token_positions_from_scratch :
    (∀ (st : Lexer) (t : Token) (st' : Lexer), Synced st → step st = some (t, st') →
        t.line = specLineAt st.cstream st.it ∧ t.column = specColumnAt st.cstream st.it) ∧
      (∀ (buf : List Nat) (ts : List Token), scan buf = Except.ok ts → ∀ t ∈ ts,
        ∃ off, off < buf.length ∧ t.line = specLineAt buf off ∧
          t.column = specColumnAt buf off) ∧
      scan [49, 10, 50, 50] = Except.ok [⟨TokenValue.Number 1, 1, 1⟩,
        ⟨TokenValue.Whitespace, 1, 2⟩, ⟨TokenValue.Number 22, 2, 1⟩] := by
  refine ⟨?_, ?_, by decide⟩
  · intro st t st' hsync hstep
    obtain ⟨h1, h2⟩ := step_token_pos hsync hstep
    exact ⟨h1.trans (get_line_eq_spec st), h2.trans (get_column_eq_spec st)⟩
  · intro buf ts hscan t ht
    have h := scan_eq_some buf
    rw [hscan] at h
    refine executeAux_ok_tokens buf
      (fun u => ∃ off, off < buf.length ∧ u.line = specLineAt buf off ∧
        u.column = specColumnAt buf off) ?_ buf.length (from_cstream buf) [] ts rfl
      (synced_from_cstream buf) (by simp) h t ht
    intro st u st' hB hsync hstep
    obtain ⟨h1, h2⟩ := step_token_pos hsync hstep
    obtain ⟨_, hlt2, hle2, _⟩ := step_consumes hstep
    refine ⟨st.it, by rw [← hB]; omega, ?_, ?_⟩
    · exact h1.trans ((get_line_eq_spec st).trans (by rw [hB]))
    · exact h2.trans ((get_column_eq_spec st).trans (by rw [hB]))

/-- C4 witness: the first `step` on `"1\n22"` emits `Number 1` at the
from-scratch position of offset 0. -/
theorem token_positions_from_scratch_witness :
    (⟨TokenValue.Number 1, 1, 1⟩ : Token).line = specLineAt [49, 10, 50, 50] 0 ∧
      (⟨TokenValue.Number 1, 1, 1⟩ : Token).column = specColumnAt [49, 10, 50, 50] 0 :=
  token_positions_from_scratch.1 (from_cstream [49, 10, 50, 50]) ⟨TokenValue.Number 1, 1, 1⟩
    (move_curs (from_cstream [49, 10, 50, 50]) 1) (by decide) (by decide)

/-- C5: `scan` errors exactly when the loop reaches a cursor strictly
inside the buffer where no extractor matches; the error is
`UnrecognizedToken` at the from-scratch position of that cursor, and the
error result carries no tokens (the `Except.error` constructor holds
only a `LexerError`). Input `"@"` fails at line 1 column 1; the empty
input succeeds with no tokens. -/
theorem scan_error_characterization :
    (∀ (buf : List Nat) (e : LexerError), scan buf = Except.error e →
        ∃ stBad, Reaches (from_cstream buf) stBad ∧ stBad.it < buf.length ∧
          step stBad = none ∧ e.value = LexerErrorValue.UnrecognizedToken ∧
          e.line = specLineAt buf stBad.it ∧ e.column = specColumnAt buf stBad.it) ∧
      (∀ (buf : List Nat) (stBad : Lexer), Reaches (from_cstream buf) stBad →
        stBad.it < buf.length → step stBad = none →
        scan buf = Except.error
          ⟨LexerErrorValue.UnrecognizedToken, stBad.line, stBad.column⟩) ∧
      scan [64] = Except.error ⟨LexerErrorValue.UnrecognizedToken, 1, 1⟩ ∧
      scan [] = Except.ok [] := by
  refine ⟨?_, ?_, by decide, by decide⟩
  · intro buf e hscan
    have h := scan_eq_some buf
    rw [hscan] at h
    obtain ⟨stBad, hr, hlt, hnone, he⟩ := executeAux_bad_of_err buf.length _ [] e h
    have hcs : stBad.cstream = buf := by rw [reaches_cstream hr]; rfl
    have hsync := reaches_synced hr (synced_from_cstream buf)
    refine ⟨stBad, hr, by rw [← hcs]; exact hlt, hnone, by rw [he], ?_, ?_⟩
    · rw [he]
      exact hsync.1.trans ((get_line_eq_spec stBad).trans (by rw [hcs]))
    · rw [he]
      exact hsync.2.trans ((get_column_eq_spec stBad).trans (by rw [hcs]))
  · intro buf stBad hr hlt hnone
    have herr := executeAux_err_of_bad hr (by rw [reaches_cstream hr]; exact hlt)
      hnone [] buf.length (by simp [from_cstream])
    have h := scan_eq_some buf
    rw [herr] at h
    injection h with h
    exact h.symm

/-- C5 witness: the initial state on input `"@"` is reached in zero
steps, sits inside the buffer, and no extractor matches there. -/
theorem scan_error_characterization_witness :
    scan [64] = Except.error ⟨LexerErrorValue.UnrecognizedToken,
      (from_cstream [64]).line, (from_cstream [64]).column⟩ :=
  scan_error_characterization.2.1 [64] (from_cstream [64])
    (Reaches.refl (from_cstream [64])) (by decide) (by decide)

/-- C7: the cached line/column always match the from-scratch
recomputation — they hold initially and after every `step` — and the
cursor never decreases. -/
theorem cursor_position_invariant :
    (∀ buf : List Nat, Synced (from_cstream buf)) ∧
      ∀ (st : Lexer) (t : Token) (st' : Lexer), Synced st → step st = some (t, st') →
        Synced st' ∧ st.it ≤ st'.it ∧ st'.line = specLineAt st'.cstream st'.it ∧
          st'.column = specColumnAt st'.cstream st'.it := by
  refine ⟨synced_from_cstream, ?_⟩
  intro st t st' hsync hstep
  obtain ⟨hcs, hlt, hle, hsync'⟩ := step_consumes hstep
  exact ⟨hsync', Nat.le_of_lt hlt, hsync'.1.trans (get_line_eq_spec st'),
    hsync'.2.trans (get_column_eq_spec st')⟩

/-- C7 witness: one `step` on input `"1"`. -/
theorem cursor_position_invariant_witness :
    Synced (move_curs (from_cstream [49]) 1) ∧
      (from_cstream [49]).it ≤ (move_curs (from_cstream [49]) 1).it :=
  let h := cursor_position_invariant.2 (from_cstream [49]) ⟨TokenValue.Number 1, 1, 1⟩
    (move_curs (from_cstream [49]) 1) (by decide) (by decide)
  ⟨h.1, h.2.1⟩

/-- C8: every successful `step` strictly advances the cursor over an
unchanged buffer, so fuel equal to the buffer length suffices: the
driver loop always ends, with `Ok` or `Err`, after at most bufferlength
iterations. -/
theorem scan_terminates :
    (∀ (st : Lexer) (t : Token) (st' : Lexer), step st = some (t, st') →
        st.it < st'.it ∧ st'.cstream = st.cstream) ∧
      ∀ buf : List Nat, ∃ r, executeAux buf.length (from_cstream buf) [] = some r := by
  constructor
  · intro st t st' h
    obtain ⟨hcs, hlt, _, _⟩ := step_consumes h
    exact ⟨hlt, hcs⟩
  · intro buf
    exact ⟨scan buf, scan_eq_some buf⟩

/-- C8 witness: the `step` on input `"+"` consumes its byte. -/
theorem scan_terminates_witness :
    (from_cstream [43]).it < (move_curs (from_cstream [43]) 1).it :=
  (scan_terminates.1 (from_cstream [43]) ⟨TokenValue.Cross, 1, 1⟩
    (move_curs (from_cstream [43]) 1) (by decide)).1

/-- C9: scanning is a pure function of the input bytes — two runs of the
pipeline on the same buffer return identical results. -/
theorem scan_deterministic (buf : List Nat) (r1 r2 : Except LexerError (List Token))
    (h1 : scan buf = r1) (h2 : scan buf = r2) : r1 = r2 :=
  h1.symm.trans h2

/-- C9 witness: two runs on `"+"`. -/
theorem scan_deterministic_witness :
    (Except.ok [(⟨TokenValue.Cross, 1, 1⟩ : Token)] : Except LexerError (List Token)) =
      Except.ok [⟨TokenValue.Cross, 1, 1⟩] :=
  scan_deterministic [43] (Except.ok [⟨TokenValue.Cross, 1, 1⟩])
    (Except.ok [⟨TokenValue.Cross, 1, 1⟩]) (by decide) (by decide)

/-- C10: no successful scan ever emits a `Character` token: no extractor
produces that declared variant. -/
theorem no_character_token (buf : List Nat) (ts : List Token)
    (hscan : scan buf = Except.ok ts) :
    ∀ t ∈ ts, ∀ c, t.value ≠ TokenValue.Character c := by
  intro t ht c
  have h := scan_eq_some buf
  rw [hscan] at h
  exact executeAux_ok_tokens buf (fun u => ∀ c, u.value ≠ TokenValue.Character c)
    (fun st u st' _ _ hstep c => step_not_character hstep c)
    buf.length (from_cstream buf) [] ts rfl (synced_from_cstream buf) (by simp) h t ht c

/-- C6 counterexample: the recognizer's class is Unicode `\s`, not the
claim's exact four-character set { space, tab, CR, LF }. On input
`" \x0B"` (space then vertical tab) the whitespace extractor consumes 2
bytes, and on `" \xC2\xA0"` (space then UTF-8 NBSP) it consumes 3,
while the longest run over the claim's set has length 1 in both
inputs. -/
theorem whitespace_four_set_counterexample :
    (try_extract_whitespace (from_cstream [32, 11])).map (fun p => p.2.it) = some 2 ∧
      (try_extract_whitespace (from_cstream [32, 194, 160])).map (fun p => p.2.it) = some 3 ∧
      (([32, 11] : List Nat).takeWhile isSpecWs4).length = 1 ∧
      (([32, 194, 160] : List Nat).takeWhile isSpecWs4).length = 1 :=
  ⟨by decide, by decide, by decide, by decide⟩

/-- Declaratively: the first `n` bytes of `l` are a concatenation of
UTF-8 encodings of Unicode white-space codepoints (single `\s`
matches). -/
inductive WsDecomp : List Nat → Nat → Prop
  | nil (l : List Nat) : WsDecomp l 0
  | cons (l : List Nat) (k n : Nat) : wsCharLen l = some k →
      WsDecomp (l.drop k) n → WsDecomp l (k + n)

/-- The `^\s+` match is a maximal run: its bytes decompose into `\s`
matches and no further `\s` match starts where it ends. -/
theorem wsRunLen_spec : ∀ (f : Nat) (l : List Nat), l.length ≤ f →
    WsDecomp l (wsRunLen l) ∧ wsCharLen (l.drop (wsRunLen l)) = none := by
  intro f
  induction f with
  | zero =>
    intro l hl
    have hnil : l = [] := List.eq_nil_of_length_eq_zero (by omega)
    subst hnil
    exact ⟨WsDecomp.nil [], by rw [List.drop_nil]; exact wsCharLen_nil⟩
  | succ g ih =>
    intro l hl
    rw [wsRunLen_eq]
    cases hc : wsCharLen l with
    | none =>
      exact ⟨WsDecomp.nil l, by rw [List.drop_zero]; exact hc⟩
    | some k =>
      have hb := wsCharLen_bounds hc
      obtain ⟨hd, hnone⟩ := ih (l.drop k) (by rw [List.length_drop]; omega)
      refine ⟨WsDecomp.cons l k _ hc hd, ?_⟩
      show wsCharLen (l.drop (k + wsRunLen (l.drop k))) = none
      rw [← List.drop_drop]
      exact hnone

/-- C6 amended: whenever the remainder at the cursor begins with the
UTF-8 encoding of a Unicode white-space codepoint (regex `\s` in its
default Unicode mode), the whitespace recognizer matches, and it
consumes exactly the longest contiguous run of such encodings (maximal
munch over the `\s` class): the consumed bytes decompose into `\s`
matches and no `\s` match starts at the first unconsumed byte; when no
such encoding starts at the cursor, the recognizer does not match and
consumes nothing. -/
theorem whitespace_maximal_munch :
    (∀ (st : Lexer) (t : Token) (st' : Lexer), try_extract_whitespace st = some (t, st') →
        t.value = TokenValue.Whitespace ∧ st.it < st'.it ∧ st'.it ≤ st.cstream.length ∧
          WsDecomp (st.cstream.drop st.it) (st'.it - st.it) ∧
          wsCharLen ((st.cstream.drop st.it).drop (st'.it - st.it)) = none) ∧
      (∀ (st : Lexer) (k : Nat), wsCharLen (st.cstream.drop st.it) = some k →
        (try_extract_whitespace st).isSome = true) ∧
      ∀ (st : Lexer), wsCharLen (st.cstream.drop st.it) = none →
        try_extract_whitespace st = none := by
  refine ⟨?_, ?_, ?_⟩
  · intro st t st' h
    unfold try_extract_whitespace at h
    split at h
    · exact absurd h (by simp)
    rename_i hne
    simp only [Option.some.injEq, Prod.mk.injEq] at h
    obtain ⟨h1, h2⟩ := h
    subst h2
    have hlt : st.it < st.cstream.length := by
      by_contra hge
      have hdrop : st.cstream.drop st.it = [] :=
        List.drop_eq_nil_iff_le.mpr (Nat.le_of_not_lt hge)
      rw [hdrop] at hne
      exact hne rfl
    have hlen := wsRunLen_le (st.cstream.drop st.it)
    rw [List.length_drop] at hlen
    have hit : (move_curs st (wsRunLen (st.cstream.drop st.it))).it - st.it =
        wsRunLen (st.cstream.drop st.it) := by
      rw [move_curs_it]
      omega
    obtain ⟨hd, hnone⟩ :=
      wsRunLen_spec (st.cstream.drop st.it).length (st.cstream.drop st.it) (Nat.le_refl _)
    refine ⟨by rw [← h1], ?_, ?_, ?_, ?_⟩
    · rw [move_curs_it]
      have := Nat.one_le_iff_ne_zero.mpr hne
      omega
    · rw [move_curs_it]
      omega
    · rw [hit]
      exact hd
    · rw [hit]
      exact hnone
  · intro st k hc
    unfold try_extract_whitespace
    have hne : wsRunLen (st.cstream.drop st.it) ≠ 0 := by
      rw [wsRunLen_eq, hc]
      show k + wsRunLen ((st.cstream.drop st.it).drop k) ≠ 0
      have := (wsCharLen_bounds hc).1
      omega
    rw [if_neg hne]
    rfl
  · intro st hc
    unfold try_extract_whitespace
    rw [if_pos (by rw [wsRunLen_eq, hc])]

/-- C6 amended witness: a state sitting on a space byte (a one-byte `\s`
match). -/
theorem whitespace_maximal_munch_witness :
    (try_extract_whitespace (from_cstream [32])).isSome = true :=
  whitespace_maximal_munch.2.1 (from_cstream [32]) 1 (by decide)

/-- C10 witness: the `Cross` token of input `"+"` is not a `Character`. -/
theorem no_character_token_witness :
    (⟨TokenValue.Cross, 1, 1⟩ : Token).value ≠ TokenValue.Character 65 :=
  no_character_token [43] [⟨TokenValue.Cross, 1, 1⟩] (by decide) ⟨TokenValue.Cross, 1, 1⟩
    (List.mem_singleton.mpr rfl) 65
